import Mathlib

/-!
Verification of the TXmlConfig flattening and path-addressed access layer.

Strings are modelled as `List Char`.  The `std::map<std::string, std::string>`
member `mNodes` is modelled as an association list that is kept sorted by the
lexicographic order on keys, which is exactly how `std::map` stores and
iterates its entries.  The XML tree handed over by the external parser
(`TXMLEngine`) is modelled as a tree of nodes carrying a name, an optional
text content, an attribute list and a child forest.
-/

/-- Character-level model of C `isspace` in the default locale:
space, tab, newline, vertical tab, form feed, carriage return. -/
def isSpaceC (c : Char) : Bool :=
  c.toNat = 32 || c.toNat = 9 || c.toNat = 10 || c.toNat = 11 ||
    c.toNat = 12 || c.toNat = 13

/-- Character-level model of C `isdigit`: the characters with codes 48-57. -/
def isDigitC (c : Char) : Bool :=
  48 ≤ c.toNat && c.toNat ≤ 57

/-- Model of `path.erase(std::remove_if(..., isspace), ...)`: drop every
whitespace character of the string. -/
def stripWS (s : List Char) : List Char :=
  s.filter (fun c => !(isSpaceC c))

/-- The literal three-character substring searched for by `canonize`. -/
def brz : List Char := ['[', '0', ']']

/-- Tests whether the string starts with the literal substring of `brz`. -/
def isBr0At (l : List Char) : Bool :=
  decide (l.take 3 = brz)

/-- Model of `path.find("[0]")` followed by `path.erase(pos, 3)`: remove the
first occurrence of the substring `"[0]"`, leaving the string unchanged when
there is none. -/
def removeFirstBr0 : List Char → List Char
  | [] => []
  | c :: rest => if isBr0At (c :: rest) then rest.drop 2 else c :: removeFirstBr0 rest

/-- Tests whether the string contains the substring `"[0]"` anywhere,
mirroring `path.find("[0]") != npos`. -/
def hasBr0 : List Char → Bool
  | [] => false
  | c :: rest => isBr0At (c :: rest) || hasBr0 rest

/-- Model of `TXmlConfig::canonize`: strip all whitespace, then erase the
first occurrence of the literal substring `"[0]"`. -/
def canonize (path : List Char) : List Char :=
  removeFirstBr0 (stripWS path)

/-- Accumulating decimal reader: the digit loop of `stringstream >> value`
for an unsigned sequence of digit characters. -/
def parseNatAcc (acc : Nat) : List Char → Nat
  | [] => acc
  | c :: cs => parseNatAcc (acc * 10 + (c.toNat - 48)) cs

/-- Fuel-driven decimal printer for `Nat` (most significant digit first).
Any fuel above the digit count gives the full decimal numeral. -/
def printNatAux : Nat → Nat → List Char
  | 0, _ => []
  | fuel + 1, n =>
    if n = 0 then [] else printNatAux fuel (n / 10) ++ [Nat.digitChar (n % 10)]

/-- Decimal numeral of a natural number, as printed by the stream insertion
operator (no sign, no padding, `0` for zero). -/
def printNat (n : Nat) : List Char :=
  if n = 0 then ['0'] else printNatAux (n + 1) n

/-- Model of `convert<int>`: `sstr << s; sstr >> rv` for an `int` target.
The stream skips leading whitespace, consumes an optional sign and then a
maximal digit run; if no digit is consumed the extracted value is zero
(C++11 value-initialisation on failure).  Machine width plays no role in the
claims checked here, so the value is kept as a mathematical integer. -/
def convertInt (s : List Char) : Int :=
  match s.dropWhile isSpaceC with
  | [] => 0
  | c :: rest =>
    if c = '-' then -(parseNatAcc 0 (rest.takeWhile isDigitC) : Int)
    else if c = '+' then (parseNatAcc 0 (rest.takeWhile isDigitC) : Int)
    else (parseNatAcc 0 ((c :: rest).takeWhile isDigitC) : Int)

/-- Model of the `convert<bool>` specialization: the exact texts `"false"`
and `"true"` are recognised first, anything else falls back to
`static_cast<bool>(convert<int>(str))`. -/
def convertBool (s : List Char) : Bool :=
  if s = ("false").toList then false
  else if s = ("true").toList then true
  else convertInt s != 0

/-- Model of `convertTo<int>`: the stream output of an `int`, that is its
(possibly sign-prefixed) decimal numeral. -/
def convertToInt (v : Int) : List Char :=
  if v < 0 then '-' :: printNat v.natAbs else printNat v.natAbs

/-- Fractional value denoted by a run of digit characters after the decimal
point, as accumulated by the stream extraction for a floating-point target. -/
def parseFracQ (ds : List Char) : Rat :=
  (parseNatAcc 0 ds : Rat) / ((10 : Rat) ^ ds.length)

/-- Model of `convert<double>` (stream extraction of a floating-point value)
on plain decimal text: optional whitespace and sign, an integer digit run and
an optional `.`-separated fractional digit run.  The value is kept as an
exact rational; the claims only evaluate it on decimally exact inputs, where
the `double` rounding of the C++ stream is the identity. -/
def convertQ (s : List Char) : Rat :=
  match s.dropWhile isSpaceC with
  | [] => 0
  | c :: rest =>
    let ns : Bool × List Char :=
      if c = '-' then (true, rest)
      else if c = '+' then (false, rest)
      else (false, c :: rest)
    let ip := ns.2.takeWhile isDigitC
    let v : Rat :=
      match ns.2.drop ip.length with
      | '.' :: r2 => (parseNatAcc 0 ip : Rat) + parseFracQ (r2.takeWhile isDigitC)
      | _ => (parseNatAcc 0 ip : Rat)
    if ns.1 then -v else v

/-- Digit expansion of the fractional part `0 ≤ q < 1`, one digit per fuel
step, stopping early when the remainder is exactly zero. -/
def ratFracDigits : Nat → Rat → List Nat
  | 0, _ => []
  | fuel + 1, q =>
    if q = 0 then []
    else (q * 10).floor.toNat :: ratFracDigits fuel (q * 10 - ((q * 10).floor : Rat))

/-- Model of `convertTo<double>` (stream insertion of a floating-point value
at the default precision of six significant digits) restricted to values
whose decimal expansion is short and exact — the representative values the
round-trip claim is about.  On that class the stream prints the exact
decimal numeral with the trailing zeros removed. -/
def convertToQ (v : Rat) : List Char :=
  let sgn : List Char := if v < 0 then ['-'] else []
  let a : Rat := if v < 0 then -v else v
  let ds := ratFracDigits 6 (a - (a.floor : Rat))
  sgn ++ printNat a.floor.toNat ++
    (if ds = [] then [] else '.' :: ds.map Nat.digitChar)

/-- The flat configuration map `mNodes`.  A `std::map<string, string>` is an
ordered unique-key container; it is modelled as an association list kept
sorted by the lexicographic key order, so that list order is iteration
order. -/
abbrev Mapping := List (List Char × List Char)

/-- Lexicographic (byte-wise) strict order on strings: the order used by
`std::string::operator<` and hence by `std::map<std::string, _>`. -/
def lexLt : List Char → List Char → Bool
  | _, [] => false
  | [], _ :: _ => true
  | a :: as, b :: bs => if a < b then true else if b < a then false else lexLt as bs

/-- Key lookup in the map, the model of `mNodes.at` and `mNodes.find`. -/
def mapLookup : Mapping → List Char → Option (List Char)
  | [], _ => none
  | (k', v') :: rest, k => if k = k' then some v' else mapLookup rest k

/-- Model of `mNodes.count(k)` (0 or 1 for `std::map`, read as a Bool). -/
def mapCount (m : Mapping) (k : List Char) : Bool :=
  (mapLookup m k).isSome

/-- Model of `mNodes[k] = v`: insert at the sorted position, or overwrite the
value when the key is already present. -/
def mapInsert : Mapping → List Char → List Char → Mapping
  | [], k, v => [(k, v)]
  | (k', v') :: rest, k, v =>
    if k = k' then (k, v) :: rest
    else if lexLt k k' then (k, v) :: (k', v') :: rest
    else (k', v') :: mapInsert rest k v

/-- Sentinel value stored for nodes and attributes without content. -/
def valDNE : List Char := ("<DNE/>").toList

/-- Separator between node levels of a path. -/
def pathDelim : List Char := ['.']

/-- Separator between a node path and an attribute name. -/
def attrDelim : List Char := [':']

/-- Model of `TString::Format("[%zu]", index)`. -/
def fmtIdx (i : Nat) : List Char :=
  '[' :: printNat i ++ [']']

/-- Loop body of `pathCount`: keep incrementing the index while the probed
key exists.  The fuel argument only reflects that the C++ loop terminates
because the map is finite: among the first `mNodes.size() + 1` probed keys at
least one must be absent. -/
def pathCountAux (m : Mapping) (path : List Char) : Nat → Nat → Nat
  | index, 0 => index
  | index, fuel + 1 =>
    if mapCount m (path ++ fmtIdx index) then pathCountAux m path (index + 1) fuel
    else index

/-- Model of `TXmlConfig::pathCount`: the first index `i ≥ 1` for which
`path ++ "[i]"` is not yet a key of the map, probed sequentially from 1. -/
def pathCount (m : Mapping) (path : List Char) : Nat :=
  pathCountAux m path 1 (m.length + 1)

mutual

/-- Node of the tree produced by the external XML parser: name, optional
text content, attributes (name with optional value, in parser enumeration
order) and the ordered children. -/
inductive XmlNode : Type where
  | mk : (name : List Char) → (content : Option (List Char)) →
      (attrs : List (List Char × Option (List Char))) → (children : XmlForest) → XmlNode

/-- Ordered sibling list of XML nodes. -/
inductive XmlForest : Type where
  | nil : XmlForest
  | cons : XmlNode → XmlForest → XmlForest

end

/-- The `if (mNodes.count(path) == 0) ... else ...` step of `mapFile`:
store the node content under the bare path when it is still free, otherwise
under the path suffixed with the `pathCount` index; the second component is
the (possibly suffixed) path the node was stored under, which becomes the
parent path for attributes and children. -/
def insertNodePath (m : Mapping) (path2 v : List Char) : Mapping × List Char :=
  if mapCount m path2 = false then (mapInsert m path2 v, path2)
  else (mapInsert m (path2 ++ fmtIdx (pathCount m path2)) v,
        path2 ++ fmtIdx (pathCount m path2))

/-- The attribute loop of `mapFile`: store every attribute under
`path ++ ":" ++ attrName`, with the DNE sentinel for a valueless
attribute. -/
def attrsFold (m : Mapping) (path : List Char)
    (attrs : List (List Char × Option (List Char))) : Mapping :=
  attrs.foldl (fun acc a => mapInsert acc (path ++ attrDelim ++ a.1) (a.2.getD valDNE)) m

mutual

/-- Model of `TXmlConfig::mapFile`: extend the parent path with the node
name (above level 1), record the node under its (possibly `[i]`-suffixed)
path, then the attributes under `path ++ ":" ++ name`, then recurse into the
children with the suffixed path as new parent path. -/
def mapFile (m : Mapping) (node : XmlNode) (level : Nat) (path : List Char) : Mapping :=
  match node with
  | .mk name content attrs children =>
    let path1 := if path = [] then path else path ++ pathDelim
    let path2 := if level > 1 then path1 ++ name else path1
    let mp := insertNodePath m path2 (content.getD valDNE)
    mapForest (attrsFold mp.1 mp.2 attrs) children (level + 1) mp.2

/-- The `while (child != 0) { mapFile(...); child = xml.GetNext(child); }`
loop of `mapFile`, threading the map through the sibling list. -/
def mapForest (m : Mapping) (f : XmlForest) (level : Nat) (path : List Char) : Mapping :=
  match f with
  | .nil => m
  | .cons n rest => mapForest (mapFile m n level path) rest level path

end

/-- Name component of a node (`xml.GetNodeName(node)`). -/
def nodeName : XmlNode → List Char
  | .mk name _ _ _ => name

/-- Content component of a node (`xml.GetNodeContent(node)`). -/
def nodeContent : XmlNode → Option (List Char)
  | .mk _ content _ _ => content

/-- Attribute list of a node, in parser enumeration order. -/
def nodeAttrs : XmlNode → List (List Char × Option (List Char))
  | .mk _ _ attrs _ => attrs

/-- State of a `TXmlConfig` object: the sticky parse-error flag and the flat
node map. -/
structure ConfigState where
  mErrorParsing : Bool := false
  mNodes : Mapping := []

/-- Model of `TXmlConfig::load`: the map is cleared first; a failed parse
(no document handle) only sets the sticky error flag, a successful parse
flattens the tree from the root at level 1 with the empty starting path.
The flag is never reset, so an earlier failure persists across later calls.
`load` is a total function: no exception is raised in either case. -/
def load (st : ConfigState) (parsed : Option XmlNode) : ConfigState :=
  match parsed with
  | none => { mErrorParsing := true, mNodes := [] }
  | some root => { st with mNodes := mapFile [] root 1 [] }

/-- Model of `TXmlConfig::exists`: canonize, then check key membership. -/
def existsPath (m : Mapping) (path : List Char) : Bool :=
  mapCount m (canonize path)

/-- Model of the `get<std::string>` specialization: the stored text is
returned verbatim, the default when the path does not exist. -/
def getString (m : Mapping) (path dv : List Char) : List Char :=
  if existsPath m path = false then dv
  else (mapLookup m (canonize path)).getD []

/-- Model of the generic `get<T>` at `T = int`. -/
def getInt (m : Mapping) (path : List Char) (dv : Int) : Int :=
  if existsPath m path = false then dv
  else convertInt ((mapLookup m (canonize path)).getD [])

/-- Model of the generic `get<T>` at `T = bool` (which dispatches to the
`convert<bool>` specialization). -/
def getBool (m : Mapping) (path : List Char) (dv : Bool) : Bool :=
  if existsPath m path = false then dv
  else convertBool ((mapLookup m (canonize path)).getD [])

/-- Model of the generic `get<T>` at a floating-point `T`, with the value
carried as an exact rational. -/
def getQ (m : Mapping) (path : List Char) (dv : Rat) : Rat :=
  if existsPath m path = false then dv
  else convertQ ((mapLookup m (canonize path)).getD [])

/-- Model of the `set<std::string>` specialization. -/
def setString (m : Mapping) (path v : List Char) : Mapping :=
  mapInsert m (canonize path) v

/-- Model of the `set<bool>` specialization: exactly the text `"true"` or
`"false"` is written. -/
def setBool (m : Mapping) (path : List Char) (bv : Bool) : Mapping :=
  mapInsert m (canonize path) (if bv then ("true").toList else ("false").toList)

/-- Model of the generic `set<T>` at `T = int`. -/
def setInt (m : Mapping) (path : List Char) (v : Int) : Mapping :=
  mapInsert m (canonize path) (convertToInt v)

/-- Model of the generic `set<T>` at a floating-point `T`. -/
def setQ (m : Mapping) (path : List Char) (v : Rat) : Mapping :=
  mapInsert m (canonize path) (convertToQ v)

/-- Comma splitting performed by the `std::getline(ss, str, ',')` loop of
`getVector`: fields are the runs between commas; a field that is empty
because the input ended right after a delimiter (or was empty) is not
produced, since `getline` fails when it extracts nothing at end of input. -/
def splitFieldsAux : List Char → List Char → List (List Char)
  | [], [] => []
  | cur, [] => [cur.reverse]
  | cur, c :: rest =>
    if c = ',' then cur.reverse :: splitFieldsAux [] rest
    else splitFieldsAux (c :: cur) rest

/-- Splits a string into its comma-separated fields, `getline`-style. -/
def splitFields (s : List Char) : List (List Char) :=
  splitFieldsAux [] s

/-- Model of `getVector<int>`: default when the path does not exist,
otherwise strip all whitespace from the stored text, split on commas and
convert every field with `convert<int>`. -/
def getVectorInt (m : Mapping) (path : List Char) (dv : List Int) : List Int :=
  if existsPath m path = false then dv
  else (splitFields (stripWS ((mapLookup m (canonize path)).getD []))).map convertInt

/-- Model of `TXmlConfig::childrenOf`: canonize the query, then walk the map
in key order keeping every key whose first `path.length` characters equal
the query path, skipping the key that is exhausted by that prefix (the node
itself or anything shorter) and every attribute key. -/
def childrenOf (m : Mapping) (path0 : List Char) : List (List Char) :=
  let path := canonize path0
  (m.filter (fun kv =>
      let parent := kv.1.take path.length
      if parent = kv.1 then false
      else decide (parent = path) && !(kv.1.contains ':'))).map (fun kv => kv.1)

/-- Spec-side child predicate, written from the words of the claim: the
first `len(p)` characters of `k` equal `p`, `k` is strictly longer than `p`,
and `k` contains no attribute delimiter anywhere. -/
def specChildPred (p k : List Char) : Bool :=
  decide (k.take p.length = p) && decide (p.length < k.length) && !(k.contains ':')

/-- Leaf node named `Item` with the given text content, for the concrete
sibling-disambiguation example. -/
def exItem (content : List Char) : XmlNode :=
  .mk ("Item").toList (some content) [] .nil

/-- Concrete document of the sibling-disambiguation example: a root holding
`<Parent>` with three `<Item>` children of contents `a`, `b`, `c`. -/
def exRootC1 : XmlNode :=
  .mk ("config").toList none []
    (.cons (.mk ("Parent").toList none []
      (.cons (exItem ("a").toList)
        (.cons (exItem ("b").toList)
          (.cons (exItem ("c").toList) .nil)))) .nil)

/-- Expected flat map of the sibling-disambiguation example, in key order. -/
def exMapC1 : Mapping :=
  [([], valDNE),
   (("Parent").toList, valDNE),
   (("Parent.Item").toList, ("a").toList),
   (("Parent.Item[1]").toList, ("b").toList),
   (("Parent.Item[2]").toList, ("c").toList)]

/-- Concrete root node with text content and one attribute, used to witness
the root-key claim. -/
def exRootC10 : XmlNode :=
  .mk ("config").toList (some (("hello").toList))
    [((("attr1").toList), some (("1").toList))] .nil

theorem mem_of_mem_removeFirstBr0 {l : List Char} {a : Char}
    (h : a ∈ removeFirstBr0 l) : a ∈ l := by
  induction l with
  | nil => simp [removeFirstBr0] at h
  | cons c rest ih =>
    rw [removeFirstBr0] at h
    by_cases hb : isBr0At (c :: rest) = true
    · rw [if_pos hb] at h
      exact List.mem_cons_of_mem _ (List.drop_subset _ _ h)
    · rw [if_neg hb] at h
      rcases List.mem_cons.mp h with h | h
      · exact h ▸ List.mem_cons_self _ _
      · exact List.mem_cons_of_mem _ (ih h)

theorem stripWS_stripWS (s : List Char) : stripWS (stripWS s) = stripWS s := by
  simp [stripWS, List.filter_filter]

theorem stripWS_canonize (p : List Char) : stripWS (canonize p) = canonize p := by
  unfold canonize
  apply List.filter_eq_self.mpr
  intro a ha
  have ha' : a ∈ stripWS p := mem_of_mem_removeFirstBr0 ha
  exact (List.mem_filter.mp ha').2

theorem removeFirstBr0_of_not_hasBr0 {l : List Char} (h : hasBr0 l = false) :
    removeFirstBr0 l = l := by
  induction l with
  | nil => rfl
  | cons c rest ih =>
    rw [hasBr0, Bool.or_eq_false_iff] at h
    rw [removeFirstBr0, if_neg (by simp [h.1]), ih h.2]

theorem isBr0At_shape {c : Char} {rest : List Char}
    (h : isBr0At (c :: rest) = true) :
    c = '[' ∧ ∃ t, rest = '0' :: ']' :: t := by
  have h' : (c :: rest).take 3 = brz := of_decide_eq_true h
  match rest, h' with
  | [], h' => simp [brz] at h'
  | [r1], h' => simp [brz] at h'
  | r1 :: r2 :: t, h' =>
    simp [brz, List.take] at h'
    exact ⟨h'.1, t, by simp [h'.2.1, h'.2.2]⟩

theorem removeFirstBr0_length {l : List Char} (h : hasBr0 l = true) :
    (removeFirstBr0 l).length + 3 = l.length := by
  induction l with
  | nil => simp [hasBr0] at h
  | cons c rest ih =>
    by_cases hb : isBr0At (c :: rest) = true
    · obtain ⟨hc, t, ht⟩ := isBr0At_shape hb
      subst ht
      rw [removeFirstBr0, if_pos hb]
      simp
    · rw [hasBr0, Bool.or_eq_true_iff] at h
      rcases h with h | h
      · exact absurd h hb
      · rw [removeFirstBr0, if_neg hb]
        have := ih h
        simp only [List.length_cons]
        omega

theorem removeFirstBr0_append_brz {l : List Char} (h : hasBr0 l = false) :
    removeFirstBr0 (l ++ brz) = l := by
  induction l with
  | nil => rfl
  | cons c rest ih =>
    rw [hasBr0, Bool.or_eq_false_iff] at h
    have hpre : isBr0At (c :: (rest ++ brz)) = false := by
      by_contra hcon
      rw [Bool.not_eq_false] at hcon
      obtain ⟨hc, t, ht⟩ := isBr0At_shape hcon
      match rest, ht with
      | [], ht => simp [brz] at ht
      | [r1], ht => simp [brz] at ht
      | r1 :: r2 :: rt, ht =>
        simp only [List.cons_append, List.cons.injEq] at ht
        have : isBr0At (c :: r1 :: r2 :: rt) = true := by
          refine decide_eq_true ?_
          simp [brz, List.take, hc, ht.1, ht.2.1]
        rw [this] at h
        exact absurd h.1 (by simp)
    rw [List.cons_append, removeFirstBr0, if_neg (by simp [hpre]), ih h.2]


theorem mapLookup_mapInsert_self (m : Mapping) (k v : List Char) :
    mapLookup (mapInsert m k v) k = some v := by
  induction m with
  | nil => simp [mapInsert, mapLookup]
  | cons kv rest ih =>
    rw [mapInsert]
    by_cases h1 : k = kv.1
    · rw [if_pos h1, mapLookup, if_pos rfl]
    · rw [if_neg h1]
      by_cases h2 : lexLt k kv.1 = true
      · rw [if_pos h2, mapLookup, if_pos rfl]
      · rw [if_neg h2, mapLookup, if_neg h1]
        exact ih

theorem mapLookup_mapInsert_ne (m : Mapping) {k k' : List Char} (v : List Char)
    (h : k' ≠ k) : mapLookup (mapInsert m k v) k' = mapLookup m k' := by
  induction m with
  | nil => simp [mapInsert, mapLookup, h]
  | cons kv rest ih =>
    rw [mapInsert]
    by_cases h1 : k = kv.1
    · rw [if_pos h1, mapLookup, if_neg (h1 ▸ h), mapLookup, if_neg (h1 ▸ h)]
    · rw [if_neg h1]
      by_cases h2 : lexLt k kv.1 = true
      · rw [if_pos h2, mapLookup, if_neg h, mapLookup]
      · rw [if_neg h2, mapLookup, mapLookup]
        by_cases h3 : k' = kv.1
        · rw [if_pos h3, if_pos h3]
        · rw [if_neg h3, if_neg h3, ih]

theorem mapCount_mapInsert (m : Mapping) (k v k' : List Char)
    (h : mapCount m k' = true) : mapCount (mapInsert m k v) k' = true := by
  by_cases hk : k' = k
  · subst hk; simp [mapCount, mapLookup_mapInsert_self]
  · simpa [mapCount, mapLookup_mapInsert_ne m v hk] using h

theorem mapCount_mapInsert_self (m : Mapping) (k v : List Char) :
    mapCount (mapInsert m k v) k = true := by
  simp [mapCount, mapLookup_mapInsert_self]

theorem insertNodePath_count_mono (m : Mapping) (p v k : List Char)
    (h : mapCount m k = true) : mapCount (insertNodePath m p v).1 k = true := by
  rw [insertNodePath]
  by_cases hc : mapCount m p = false
  · rw [if_pos hc]; exact mapCount_mapInsert _ _ _ _ h
  · rw [if_neg hc]; exact mapCount_mapInsert _ _ _ _ h

theorem insertNodePath_lookup_nil (m : Mapping) (p v : List Char) {w : List Char}
    (h : mapLookup m [] = some w) :
    mapLookup (insertNodePath m p v).1 [] = some w := by
  rw [insertNodePath]
  by_cases hc : mapCount m p = false
  · rw [if_pos hc]
    have hp : ([] : List Char) ≠ p := by
      intro he
      rw [← he] at hc
      rw [mapCount, h] at hc
      simp at hc
    rw [mapLookup_mapInsert_ne m _ hp, h]
  · rw [if_neg hc]
    rw [mapLookup_mapInsert_ne m _ (by simp [fmtIdx]), h]

theorem attrsFold_count_mono :
    ∀ (attrs : List (List Char × Option (List Char))) (m : Mapping) (p k : List Char),
      mapCount m k = true → mapCount (attrsFold m p attrs) k = true := by
  intro attrs
  induction attrs with
  | nil => intro m p k h; exact h
  | cons a rest ih =>
    intro m p k h
    rw [attrsFold, List.foldl_cons]
    exact ih _ p k (mapCount_mapInsert _ _ _ _ h)

theorem attrsFold_mem :
    ∀ (attrs : List (List Char × Option (List Char))) (m : Mapping) (p : List Char)
      (a : List Char × Option (List Char)), a ∈ attrs →
      mapCount (attrsFold m p attrs) (p ++ attrDelim ++ a.1) = true := by
  intro attrs
  induction attrs with
  | nil => intro m p a h; simp at h
  | cons b rest ih =>
    intro m p a h
    rw [attrsFold, List.foldl_cons]
    rcases List.mem_cons.mp h with h | h
    · subst h
      exact attrsFold_count_mono rest _ p _ (mapCount_mapInsert_self _ _ _)
    · exact ih _ p a h

theorem attrsFold_lookup_nil :
    ∀ (attrs : List (List Char × Option (List Char))) (m : Mapping) (p : List Char),
      mapLookup (attrsFold m p attrs) [] = mapLookup m [] := by
  intro attrs
  induction attrs with
  | nil => intro m p; rfl
  | cons b rest ih =>
    intro m p
    rw [attrsFold, List.foldl_cons]
    exact (ih (mapInsert m (p ++ attrDelim ++ b.1) (b.2.getD valDNE)) p).trans
      (mapLookup_mapInsert_ne m _ (by simp [attrDelim]))

theorem mapForest_count_mono_aux :
    ∀ (N : Nat) (f : XmlForest), sizeOf f ≤ N →
      ∀ (m : Mapping) (level : Nat) (path k : List Char),
        mapCount m k = true → mapCount (mapForest m f level path) k = true := by
  intro N
  induction N using Nat.strong_induction_on with
  | _ N ih =>
    intro f hf m level path k hk
    match f with
    | .nil => simpa [mapForest] using hk
    | .cons n rest =>
      match n with
      | .mk name content attrs children =>
        have hszc : sizeOf children < N := by
          simp only [XmlForest.cons.sizeOf_spec, XmlNode.mk.sizeOf_spec] at hf
          omega
        have hszr : sizeOf rest < N := by
          simp only [XmlForest.cons.sizeOf_spec, XmlNode.mk.sizeOf_spec] at hf
          omega
        simp only [mapForest, mapFile]
        apply ih _ hszr rest le_rfl
        apply ih _ hszc children le_rfl
        apply attrsFold_count_mono
        exact insertNodePath_count_mono _ _ _ _ hk

theorem mapForest_lookup_nil_aux :
    ∀ (N : Nat) (f : XmlForest), sizeOf f ≤ N →
      ∀ (m : Mapping) (level : Nat) (path : List Char) (w : List Char),
        2 ≤ level → mapLookup m [] = some w →
        mapLookup (mapForest m f level path) [] = some w := by
  intro N
  induction N using Nat.strong_induction_on with
  | _ N ih =>
    intro f hf m level path w hl hm
    match f with
    | .nil => simpa [mapForest] using hm
    | .cons n rest =>
      match n with
      | .mk name content attrs children =>
        have hszc : sizeOf children < N := by
          simp only [XmlForest.cons.sizeOf_spec, XmlNode.mk.sizeOf_spec] at hf
          omega
        have hszr : sizeOf rest < N := by
          simp only [XmlForest.cons.sizeOf_spec, XmlNode.mk.sizeOf_spec] at hf
          omega
        simp only [mapForest, mapFile]
        apply ih _ hszr rest le_rfl _ level path w hl
        apply ih _ hszc children le_rfl _ (level + 1) _ w (by omega)
        rw [attrsFold_lookup_nil]
        exact insertNodePath_lookup_nil _ _ _ hm

theorem parseNatAcc_cons (acc : Nat) (c : Char) (cs : List Char) :
    parseNatAcc acc (c :: cs) = parseNatAcc (acc * 10 + (c.toNat - 48)) cs := rfl

theorem parseNatAcc_nil (acc : Nat) : parseNatAcc acc [] = acc := rfl

theorem parseNatAcc_append (acc : Nat) (l1 l2 : List Char) :
    parseNatAcc acc (l1 ++ l2) = parseNatAcc (parseNatAcc acc l1) l2 := by
  induction l1 generalizing acc with
  | nil => rfl
  | cons c cs ih =>
    rw [List.cons_append, parseNatAcc_cons, parseNatAcc_cons, ih]

theorem digitChar_toNat {d : Nat} (h : d < 10) :
    (Nat.digitChar d).toNat = 48 + d := by
  interval_cases d <;> rfl

theorem isDigitC_digitChar {d : Nat} (h : d < 10) :
    isDigitC (Nat.digitChar d) = true := by
  interval_cases d <;> rfl

theorem parseNatAcc_printNatAux :
    ∀ (n fuel acc : Nat), n < fuel →
      parseNatAcc acc (printNatAux fuel n) =
        acc * 10 ^ (printNatAux fuel n).length + n := by
  intro n
  induction n using Nat.strong_induction_on with
  | _ n ih =>
    intro fuel acc hf
    match fuel, hf with
    | fuel + 1, hf =>
      rw [printNatAux]
      by_cases h0 : n = 0
      · subst h0
        rw [if_pos rfl, parseNatAcc_nil]
        simp
      · rw [if_neg h0]
        have hdiv : n / 10 < n := Nat.div_lt_self (Nat.pos_of_ne_zero h0) (by omega)
        rw [parseNatAcc_append, parseNatAcc_cons, parseNatAcc_nil,
          ih (n / 10) hdiv fuel acc (by omega),
          digitChar_toNat (Nat.mod_lt n (by omega))]
        simp only [List.length_append, List.length_cons, List.length_nil]
        rw [pow_succ, ← Nat.mul_assoc]
        generalize acc * 10 ^ (printNatAux fuel (n / 10)).length = A
        omega

theorem parseNatAcc_printNat (n : Nat) : parseNatAcc 0 (printNat n) = n := by
  rw [printNat]
  by_cases h : n = 0
  · subst h; rfl
  · rw [if_neg h]
    have := parseNatAcc_printNatAux n (n + 1) 0 (by omega)
    simpa using this

theorem printNatAux_digits :
    ∀ (fuel n : Nat) (c : Char), c ∈ printNatAux fuel n → isDigitC c = true := by
  intro fuel
  induction fuel with
  | zero => intro n c h; simp [printNatAux] at h
  | succ fuel ih =>
    intro n c h
    rw [printNatAux] at h
    by_cases h0 : n = 0
    · simp [h0] at h
    · rw [if_neg h0] at h
      rcases List.mem_append.mp h with h | h
      · exact ih _ _ h
      · have hc : c = Nat.digitChar (n % 10) := by simpa using h
        subst hc
        exact isDigitC_digitChar (Nat.mod_lt _ (by omega))

theorem printNat_digits {n : Nat} {c : Char} (h : c ∈ printNat n) :
    isDigitC c = true := by
  rw [printNat] at h
  by_cases h0 : n = 0
  · rw [if_pos h0] at h
    have : c = '0' := by simpa using h
    subst this; rfl
  · rw [if_neg h0] at h
    exact printNatAux_digits _ _ _ h

theorem isDigitC_class {c : Char} (h : isDigitC c = true) :
    isSpaceC c = false ∧ c ≠ '-' ∧ c ≠ '+' := by
  rw [isDigitC, Bool.and_eq_true, decide_eq_true_eq, decide_eq_true_eq] at h
  refine ⟨?_, ?_, ?_⟩
  · rw [isSpaceC]
    simp only [Bool.or_eq_false_iff, decide_eq_false_iff_not]
    omega
  · intro he; subst he; revert h; decide
  · intro he; subst he; revert h; decide

theorem takeWhile_all (p : Char → Bool) :
    ∀ l : List Char, (∀ c ∈ l, p c = true) → l.takeWhile p = l := by
  intro l
  induction l with
  | nil => intro _; rfl
  | cons c cs ih =>
    intro h
    rw [List.takeWhile_cons, h c (List.mem_cons_self c cs)]
    rw [if_pos rfl, ih (fun x hx => h x (List.mem_cons_of_mem c hx))]

theorem printNat_ne_nil (n : Nat) : printNat n ≠ [] := by
  rw [printNat]
  by_cases h : n = 0
  · simp [h]
  · rw [if_neg h, printNatAux, if_neg h]
    simp

theorem convertInt_printNat (n : Nat) : convertInt (printNat n) = (n : Int) := by
  match hp : printNat n with
  | [] => exact absurd hp (printNat_ne_nil n)
  | c :: cs =>
    have hd : isDigitC c = true := printNat_digits (hp ▸ List.mem_cons_self c cs)
    obtain ⟨hs, hm, hpp⟩ := isDigitC_class hd
    have hdw : (c :: cs).dropWhile isSpaceC = c :: cs := by
      rw [List.dropWhile_cons, hs]; simp
    rw [convertInt]
    rw [hdw]
    simp only []
    rw [if_neg hm, if_neg hpp]
    rw [takeWhile_all isDigitC (c :: cs) (fun x hx => printNat_digits (hp ▸ hx))]
    rw [← hp, parseNatAcc_printNat]

theorem convertInt_convertToInt (v : Int) : convertInt (convertToInt v) = v := by
  rw [convertToInt]
  by_cases hv : v < 0
  · rw [if_pos hv]
    have hdm : isSpaceC '-' = false := rfl
    have hdw : ('-' :: printNat v.natAbs).dropWhile isSpaceC =
        '-' :: printNat v.natAbs := by
      rw [List.dropWhile_cons, hdm]; simp
    rw [convertInt, hdw]
    simp only []
    rw [if_pos trivial]
    rw [takeWhile_all isDigitC (printNat v.natAbs) (fun x hx => printNat_digits hx)]
    rw [parseNatAcc_printNat]
    omega
  · rw [if_neg hv, convertInt_printNat]
    omega

theorem pathCountAux_spec :
    ∀ (fuel start : Nat) (m : Mapping) (path : List Char),
      (∃ j, start ≤ j ∧ j < start + fuel ∧ mapCount m (path ++ fmtIdx j) = false) →
      start ≤ pathCountAux m path start fuel ∧
      mapCount m (path ++ fmtIdx (pathCountAux m path start fuel)) = false ∧
      ∀ j, start ≤ j → j < pathCountAux m path start fuel →
        mapCount m (path ++ fmtIdx j) = true := by
  intro fuel
  induction fuel with
  | zero =>
    intro start m path h
    obtain ⟨j, h1, h2, _⟩ := h
    omega
  | succ fuel ih =>
    intro start m path h
    obtain ⟨j, h1, h2, h3⟩ := h
    rw [pathCountAux]
    by_cases hc : mapCount m (path ++ fmtIdx start) = true
    · rw [if_pos hc]
      have hj : start + 1 ≤ j := by
        rcases Nat.eq_or_lt_of_le h1 with he | hlt
        · rw [← he] at h3; rw [h3] at hc; exact absurd hc (by simp)
        · omega
      obtain ⟨a1, a2, a3⟩ := ih (start + 1) m path ⟨j, hj, by omega, h3⟩
      refine ⟨by omega, a2, ?_⟩
      intro j2 hj2 hlt
      by_cases he2 : j2 = start
      · rw [he2]; exact hc
      · exact a3 j2 (by omega) hlt
    · rw [if_neg hc]
      refine ⟨le_rfl, by simpa using hc, ?_⟩
      intro j2 hj2 hlt
      omega

theorem take_eq_self_iff_le (k : List Char) (n : Nat) :
    k.take n = k ↔ k.length ≤ n := by
  constructor
  · intro h
    have hlen := congrArg List.length h
    simp [List.length_take] at hlen
    omega
  · intro h
    induction k generalizing n with
    | nil => simp
    | cons c cs ih =>
      match n, h with
      | n + 1, h =>
        simp only [List.take_succ_cons, List.cons.injEq, true_and]
        exact ih n (by simpa using h)

theorem filter_fst_map (P : List Char → Bool) :
    ∀ m : Mapping,
      (m.filter (fun kv => P kv.1)).map (fun kv => kv.1) =
        (m.map (fun kv => kv.1)).filter P := by
  intro m
  induction m with
  | nil => rfl
  | cons kv rest ih =>
    by_cases h : P kv.1 = true
    · simp [List.filter_cons, h, ih]
    · simp [List.filter_cons, h, ih]

theorem childPred_eq_spec (path k : List Char) :
    (if k.take path.length = k then false
     else decide (k.take path.length = path) && !(k.contains ':')) =
      specChildPred path k := by
  by_cases h1 : k.take path.length = k
  · rw [if_pos h1]
    by_cases h2 : k.take path.length = path
    · have hk : k = path := by rw [← h1, h2]
      subst hk
      simp [specChildPred]
    · rw [specChildPred]
      simp [h2]
  · rw [if_neg h1]
    have hlen : path.length < k.length := by
      have := (take_eq_self_iff_le k path.length).not.mp h1
      omega
    rw [specChildPred]
    by_cases h2 : k.take path.length = path
    · simp [h2, hlen]
    · simp [h2]

theorem ratFracDigits_succ (fuel : Nat) (q : Rat) :
    ratFracDigits (fuel + 1) q =
      if q = 0 then []
      else (q * 10).floor.toNat ::
        ratFracDigits fuel (q * 10 - ((q * 10).floor : Rat)) := rfl

theorem convertToQ_three_halves : convertToQ ((3 : Rat)/2) = ("1.5").toList := by
  have hneg : ¬((3 : Rat)/2 < 0) := by norm_num
  have hf32 : Rat.floor ((3 : Rat)/2) = 1 := by
    have h : Rat.floor ((3 : Rat)/2) = ⌊(3 : Rat)/2⌋ := rfl
    rw [h, Int.floor_eq_iff]
    constructor <;> norm_num
  have hsub : (3 : Rat)/2 - ((1 : Int) : Rat) = 1/2 := by norm_num
  have hmul : (1 : Rat)/2 * 10 = 5 := by norm_num
  have hf5 : Rat.floor (5 : Rat) = 5 := rfl
  have hsub2 : (5 : Rat) - ((5 : Int) : Rat) = 0 := by norm_num
  have hd1 : ratFracDigits 6 ((1 : Rat)/2) = [5] := by
    rw [show (6 : Nat) = 5 + 1 from rfl, ratFracDigits_succ,
      if_neg (by norm_num : ¬((1 : Rat)/2 = 0)), hmul, hf5, hsub2,
      show (5 : Nat) = 4 + 1 from rfl, ratFracDigits_succ, if_pos rfl]
    rfl
  simp only [convertToQ]
  rw [if_neg hneg, if_neg hneg, hf32, hsub, hd1]
  rfl

theorem convertQ_one_five : convertQ (("1.5").toList) = (3 : Rat)/2 := by
  show ((1 : Nat) : Rat) + ((5 : Nat) : Rat) / ((10 : Rat) ^ 1) = (3 : Rat)/2
  norm_num

theorem existsPath_mapInsert_canonize (m : Mapping) (p w : List Char) :
    existsPath (mapInsert m (canonize p) w) p = true := by
  rw [existsPath, mapCount, mapLookup_mapInsert_self]
  rfl

/-- C1: whenever a free probed slot exists (which the finiteness of the map
guarantees), `pathCount` returns the smallest index `i ≥ 1` such that
`path ++ "[i]"` is not yet a key, probed sequentially from 1; and flattening
the concrete document with three `Item` siblings of contents `a`, `b`, `c`
under `Parent` yields exactly the keys `Parent.Item -> a`,
`Parent.Item[1] -> b`, `Parent.Item[2] -> c` (besides the root and `Parent`
keys themselves). -/
theorem C1_sibling_disambiguation :
    (∀ (m : Mapping) (path : List Char),
      (∃ j, 1 ≤ j ∧ j ≤ m.length + 1 ∧ mapCount m (path ++ fmtIdx j) = false) →
      1 ≤ pathCount m path ∧
      mapCount m (path ++ fmtIdx (pathCount m path)) = false ∧
      ∀ j, 1 ≤ j → j < pathCount m path → mapCount m (path ++ fmtIdx j) = true) ∧
    mapFile [] exRootC1 1 [] = exMapC1 := by
  constructor
  · intro m path h
    obtain ⟨j, h1, h2, h3⟩ := h
    exact pathCountAux_spec (m.length + 1) 1 m path ⟨j, h1, by omega, h3⟩
  · decide

/-- Witness for C1 at the concrete example map: the probed index for
`Parent.Item` is free and every smaller probed index from 1 is taken. -/
theorem C1_witness :
    mapCount exMapC1 (("Parent.Item").toList ++
      fmtIdx (pathCount exMapC1 (("Parent.Item").toList))) = false ∧
    ∀ j, 1 ≤ j → j < pathCount exMapC1 (("Parent.Item").toList) →
      mapCount exMapC1 (("Parent.Item").toList ++ fmtIdx j) = true := by
  have h := C1_sibling_disambiguation.1 exMapC1 (("Parent.Item").toList)
    ⟨3, by decide, by decide, by decide⟩
  exact ⟨h.2.1, h.2.2⟩

/-- C2 (amended): canonicalization is idempotent exactly for those paths
whose canonical form no longer contains the substring `"[0]"` — removing
only the first occurrence leaves a second pass something more to remove
otherwise, as the counterexample `"[0][0]"` shows. -/
theorem C2_canonize_idempotent_iff (p : List Char) :
    canonize (canonize p) = canonize p ↔ hasBr0 (canonize p) = false := by
  have h1 : canonize (canonize p) = removeFirstBr0 (canonize p) := by
    show removeFirstBr0 (stripWS (canonize p)) = removeFirstBr0 (canonize p)
    rw [stripWS_canonize]
  constructor
  · intro h
    by_contra hb
    rw [Bool.not_eq_false] at hb
    have hlen := removeFirstBr0_length hb
    rw [h1] at h
    have hcon := congrArg List.length h
    omega
  · intro hb
    rw [h1, removeFirstBr0_of_not_hasBr0 hb]

/-- Counterexample to C2 as stated: canonicalization is not idempotent on
the path `"[0][0]"`, whose first pass gives `"[0]"` and second pass `""`. -/
theorem C2_counterexample :
    ¬ canonize (canonize (("[0][0]").toList)) = canonize (("[0][0]").toList) := by
  decide

/-- C3: for every path whose whitespace-stripped form contains no `"[0]"`
(in particular every collision-free bare path), the bare path and its
explicit zero-index form canonicalize to the same string. -/
theorem C3_zero_index_equiv (p : List Char) (h : hasBr0 (stripWS p) = false) :
    canonize p = canonize (p ++ ("[0]").toList) := by
  have hb : ("[0]").toList = brz := rfl
  have h2 : stripWS (p ++ brz) = stripWS p ++ brz := by
    rw [stripWS, List.filter_append]
    rfl
  rw [hb, canonize, canonize, h2, removeFirstBr0_append_brz h,
    removeFirstBr0_of_not_hasBr0 h]

/-- Witness for C3 at the concrete collision-free path `Parent.Item`. -/
theorem C3_witness :
    hasBr0 (stripWS (("Parent.Item").toList)) = false ∧
    canonize (("Parent.Item").toList) =
      canonize (("Parent.Item").toList ++ ("[0]").toList) :=
  ⟨by decide, C3_zero_index_equiv _ (by decide)⟩

/-- C4: `get<text>` returns the supplied default unchanged when the path
does not exist, and the stored text verbatim (no parsing) when it does. -/
theorem C4_get_text (m : Mapping) (p t : List Char) :
    (existsPath m p = false → getString m p t = t) ∧
    (∀ v, mapLookup m (canonize p) = some v → getString m p t = v) := by
  constructor
  · intro h
    rw [getString, if_pos h]
  · intro v hv
    have he : existsPath m p = true := by
      rw [existsPath, mapCount, hv]
      rfl
    rw [getString, if_neg (by rw [he]; simp), hv]
    rfl

/-- Witness for C4 on a one-entry store: a missing path yields the default,
an existing path yields the stored text. -/
theorem C4_witness :
    getString [((("a").toList), (("x").toList))] (("b").toList) (("t").toList) =
      ("t").toList ∧
    getString [((("a").toList), (("x").toList))] (("a").toList) (("t").toList) =
      ("x").toList :=
  ⟨(C4_get_text _ _ _).1 (by decide), (C4_get_text _ _ _).2 _ (by decide)⟩

/-- C5: boolean conversion recognises exactly the literal texts `"true"` and
`"false"` (case-sensitively); any other text is parsed as an integer whose
truthiness is returned, so `"1"` gives true, `"0"` gives false — and e.g.
`"True"` gives false via the zero integer fallback. -/
theorem C5_bool_conversion :
    convertBool (("true").toList) = true ∧
    convertBool (("false").toList) = false ∧
    (∀ s, s ≠ ("true").toList → s ≠ ("false").toList →
      convertBool s = decide (convertInt s ≠ 0)) ∧
    convertBool (("1").toList) = true ∧
    convertBool (("0").toList) = false ∧
    convertBool (("True").toList) = false := by
  refine ⟨by decide, by decide, ?_, by decide, by decide, by decide⟩
  intro s h1 h2
  rw [convertBool, if_neg h2, if_neg h1]
  by_cases h : convertInt s = 0
  · simp [h]
  · simp [h]

/-- Witness for C5 at the text `"7"`, which is neither boolean literal. -/
theorem C5_witness :
    convertBool (("7").toList) = decide (convertInt (("7").toList) ≠ 0) :=
  C5_bool_conversion.2.2.1 _ (by decide) (by decide)

/-- C6: set-then-get round-trips — for every text, every boolean (with the
setter writing exactly `"true"`/`"false"`), every integer, and the
representative floating-point value 3/2. -/
theorem C6_set_get_roundtrip :
    (∀ (m : Mapping) (p v d : List Char), getString (setString m p v) p d = v) ∧
    (∀ (m : Mapping) (p : List Char) (b d : Bool), getBool (setBool m p b) p d = b) ∧
    (∀ (m : Mapping) (p : List Char) (b : Bool),
      mapLookup (setBool m p b) (canonize p) =
        some (if b then ("true").toList else ("false").toList)) ∧
    (∀ (m : Mapping) (p : List Char) (v d : Int), getInt (setInt m p v) p d = v) ∧
    (∀ (m : Mapping) (p : List Char) (d : Rat),
      getQ (setQ m p ((3 : Rat)/2)) p d = (3 : Rat)/2) := by
  refine ⟨?_, ?_, ?_, ?_, ?_⟩
  · intro m p v d
    rw [setString, getString, if_neg (by rw [existsPath_mapInsert_canonize]; simp),
      mapLookup_mapInsert_self]
    rfl
  · intro m p b d
    rw [setBool, getBool, if_neg (by rw [existsPath_mapInsert_canonize]; simp),
      mapLookup_mapInsert_self]
    cases b <;> decide
  · intro m p b
    rw [setBool, mapLookup_mapInsert_self]
  · intro m p v d
    rw [setInt, getInt, if_neg (by rw [existsPath_mapInsert_canonize]; simp),
      mapLookup_mapInsert_self]
    show convertInt (convertToInt v) = v
    exact convertInt_convertToInt v
  · intro m p d
    rw [setQ, getQ, if_neg (by rw [existsPath_mapInsert_canonize]; simp),
      mapLookup_mapInsert_self]
    show convertQ (convertToQ ((3 : Rat)/2)) = (3 : Rat)/2
    rw [convertToQ_three_halves, convertQ_one_five]

/-- C7: `getVector` returns the default when the path does not exist;
otherwise it strips all whitespace from the stored text, splits on commas
(an empty field between consecutive commas becoming an empty-text element,
which converts to zero for integers), converts each field with the scalar
conversion and keeps left-to-right source order — `"50, 0, 1"` gives
`[50, 0, 1]`. -/
theorem C7_getVector (m : Mapping) (p : List Char) (dv : List Int) :
    (existsPath m p = false → getVectorInt m p dv = dv) ∧
    (∀ v, mapLookup m (canonize p) = some v →
      getVectorInt m p dv = (splitFields (stripWS v)).map convertInt) ∧
    (splitFields (stripWS (("50, 0, 1").toList))).map convertInt = [50, 0, 1] ∧
    (splitFields (stripWS (("1,,2").toList))).map convertInt = [1, 0, 2] := by
  refine ⟨?_, ?_, by decide, by decide⟩
  · intro h
    rw [getVectorInt, if_pos h]
  · intro v hv
    rw [getVectorInt, if_neg (by rw [existsPath, mapCount, hv]; simp), hv]
    rfl

/-- Witness for C7 on a one-entry store holding the text `"50, 0, 1"`. -/
theorem C7_witness :
    getVectorInt [((("v").toList), (("50, 0, 1").toList))] (("v").toList) [] =
      (splitFields (stripWS (("50, 0, 1").toList))).map convertInt :=
  (C7_getVector _ _ _).2.1 _ (by decide)

/-- C8: `childrenOf` canonicalizes the query and returns, in lexicographic
key order, exactly the stored keys whose first `len(path)` characters equal
the query path, that are strictly longer than it, and that contain no
attribute delimiter — a raw character-prefix match, not a segment-aware
one. -/
theorem C8_childrenOf (m : Mapping) (path0 : List Char)
    (hs : List.Pairwise (fun a b => lexLt a.1 b.1 = true) m) :
    childrenOf m path0 =
      (m.map (fun kv => kv.1)).filter (specChildPred (canonize path0)) ∧
    List.Pairwise (fun a b => lexLt a b = true) (childrenOf m path0) := by
  have he : childrenOf m path0 =
      (m.filter (fun kv => specChildPred (canonize path0) kv.1)).map
        (fun kv => kv.1) := by
    simp only [childrenOf]
    congr 1
    refine List.filter_congr ?_
    intro kv _
    exact childPred_eq_spec (canonize path0) kv.1
  constructor
  · rw [he, filter_fst_map]
  · rw [he]
    exact (hs.filter _).map _ (fun a b hab => hab)

/-- Witness for C8 at the concrete example map and query path `Parent`. -/
theorem C8_witness :
    childrenOf exMapC1 (("Parent").toList) =
      (exMapC1.map (fun kv => kv.1)).filter
        (specChildPred (canonize (("Parent").toList))) ∧
    List.Pairwise (fun a b => lexLt a b = true)
      (childrenOf exMapC1 (("Parent").toList)) :=
  C8_childrenOf _ _ (by decide)

/-- C9: a failed parse sets the sticky error flag and leaves the map empty
(`load` is total, so nothing is raised); afterwards `exists` is false and
every getter returns its supplied default for every path, and even a later
successful load does not clear the flag. -/
theorem C9_parse_failure (st : ConfigState) (p d : List Char) (di : Int)
    (db : Bool) (dv : List Int) :
    (load st none).mErrorParsing = true ∧
    (load st none).mNodes = [] ∧
    existsPath (load st none).mNodes p = false ∧
    getString (load st none).mNodes p d = d ∧
    getInt (load st none).mNodes p di = di ∧
    getBool (load st none).mNodes p db = db ∧
    getVectorInt (load st none).mNodes p dv = dv ∧
    (∀ root, (load (load st none) (some root)).mErrorParsing = true) := by
  have hfalse : existsPath (load st none).mNodes p = false := rfl
  refine ⟨rfl, rfl, rfl, ?_, ?_, ?_, ?_, fun root => rfl⟩
  · rw [getString, if_pos hfalse]
  · rw [getInt, if_pos hfalse]
  · rw [getBool, if_pos hfalse]
  · rw [getVectorInt, if_pos hfalse]

/-- C10: after every successful load the root node itself is stored under
the empty path, holding its text content or the DNE sentinel, so
`exists("")` is true; and every attribute of the root is stored under a key
of the form `":attrName"`. -/
theorem C10_root_key (root : XmlNode) :
    mapLookup (mapFile [] root 1 []) [] = some ((nodeContent root).getD valDNE) ∧
    existsPath (mapFile [] root 1 []) [] = true ∧
    (∀ a ∈ nodeAttrs root,
      mapCount (mapFile [] root 1 []) (attrDelim ++ a.1) = true) := by
  match root with
  | .mk name content attrs children =>
    have hstep : mapFile [] (.mk name content attrs children) 1 [] =
        mapForest (attrsFold [(([] : List Char), content.getD valDNE)] [] attrs)
          children 2 [] := by
      simp [mapFile, insertNodePath, mapCount, mapLookup, mapInsert]
    have hlook : mapLookup (mapForest (attrsFold
        [(([] : List Char), content.getD valDNE)] [] attrs) children 2 []) [] =
        some (content.getD valDNE) := by
      apply mapForest_lookup_nil_aux (sizeOf children) children le_rfl _ 2 [] _
        (by omega)
      rw [attrsFold_lookup_nil]
      rfl
    refine ⟨?_, ?_, ?_⟩
    · rw [hstep]
      exact hlook
    · rw [existsPath]
      have hc : canonize ([] : List Char) = [] := rfl
      rw [hc, mapCount, hstep, hlook]
      rfl
    · intro a ha
      rw [hstep]
      apply mapForest_count_mono_aux (sizeOf children) children le_rfl
      have hmem := attrsFold_mem attrs
        [(([] : List Char), content.getD valDNE)] [] a ha
      simpa using hmem

/-- Witness for C10 at a concrete root with content and one attribute. -/
theorem C10_witness :
    mapLookup (mapFile [] exRootC10 1 []) [] =
      some ((nodeContent exRootC10).getD valDNE) ∧
    existsPath (mapFile [] exRootC10 1 []) [] = true ∧
    mapCount (mapFile [] exRootC10 1 [])
      (attrDelim ++ ("attr1").toList) = true := by
  have h := C10_root_key exRootC10
  exact ⟨h.1, h.2.1, h.2.2 ((("attr1").toList), some (("1").toList)) (by decide)⟩
